import Mathlib

/-!
Verification of the MindFlow grid-constrained spatial tree engine.

The definitions below are a shallow embedding of the repository's source:

* `src/types.ts` — data model (`MindNode`, `GRID_SIZE`, `CENTER_COORD`);
* `src/components/GridEditor.tsx` — the editor component: drag-to-connect
  placement, confirm, edit, cascading delete, root creation;
* `src/components/NodeInput.tsx` — the popup input's submit guard;
* `src/services/geminiService.ts` — the suggestion-service boundary.

Conventions of the embedding:

* JS strings used as node ids (`crypto.randomUUID()`) are modelled as `Nat`
  drawn from a monotone counter `nextId` carried in the editor state; the
  counter models the freshness/uniqueness guarantee of `randomUUID`.
* JS `number` grid coordinates are `Int` (they can go negative via
  `Math.floor` before the bounds check); pointer percentages are `ℚ`.
* `null`/`undefined` optional values are `Option`; JS truthiness of a
  string id (`if (selectedNodeId)`) is `Option.isSome`.
* `Date.now()` is an explicit `now : Nat` parameter.
* React `useState` component state is an explicit `EditorState` record;
  each event handler is a state-transition function.
-/

/-- Hue/saturation/lightness color value. The repository's `colorUtils.ts`
is not among the provided sources, so the color model follows the spec's
description of the color derivation contract (hue in degrees, other
components of the model kept by hue rotation). -/
structure Hsl where
  hue : Nat
  sat : ℚ
  light : ℚ
deriving DecidableEq, Repr

/-- Modelled from the spec: `adjustHue` from `src/utils/colorUtils.ts` (file
not under `src/`); rotates the hue by `deg` degrees modulo 360, keeping the
other components of the color model unchanged. -/
def adjustHue (c : Hsl) (deg : Nat) : Hsl :=
  { c with hue := (c.hue + deg) % 360 }

/-- Modelled from the spec: `fadeColor` from `src/utils/colorUtils.ts` (file
not under `src/`); lightens a color by blending it a fixed fraction `f`
toward white, preserving hue and saturation (lightness moves toward 1 by
the fraction `f` of the remaining distance). -/
def fadeColor (c : Hsl) (f : ℚ) : Hsl :=
  { c with light := c.light + (1 - c.light) * f }

/-- From `src/types.ts`: a placed thought node. -/
structure MindNode where
  id : Nat
  x : Int
  y : Int
  content : String
  color : Hsl
  parentId : Option Nat
  depth : Nat
  timestamp : Nat
deriving DecidableEq, Repr

/-- From `src/types.ts`: `GRID_SIZE = 7`. -/
def GRID_SIZE : Int := 7

/-- From `src/types.ts`: `CENTER_COORD = 3` ((3,3) is the center of the 7x7 grid). -/
def CENTER_COORD : Int := 3

/-- The `activeInput` component state of `GridEditor`
(`{ x, y, parentId?, isEditing? }`); absent optional fields are `none`/`false`. -/
structure ActiveInput where
  x : Int
  y : Int
  parentId : Option Nat
  isEditing : Bool
deriving DecidableEq, Repr

/-- The `dragState` component state of `GridEditor`
(`{ sourceNodeId, currentPos }`); the current position is in container
percent units. -/
structure DragState where
  sourceNodeId : Nat
  currentPosX : ℚ
  currentPosY : ℚ
deriving DecidableEq, Repr

/-- The `useState`/`useRef` state of the `GridEditor` component, together
with the `nextId` counter modelling `crypto.randomUUID()` freshness. -/
structure EditorState where
  nodes : List MindNode
  activeInput : Option ActiveInput
  selectedNodeId : Option Nat
  hoveredNodeId : Option Nat
  dragState : Option DragState
  isDragging : Bool
  nextId : Nat
deriving DecidableEq, Repr

/-- `CELL_PERCENT = 100 / GRID_SIZE` (GridEditor.tsx line 28). -/
def CELL_PERCENT : ℚ := 100 / 7

/-- `HALF_CELL = CELL_PERCENT / 2` (GridEditor.tsx line 29). -/
def HALF_CELL : ℚ := CELL_PERCENT / 2

/-- `getNodeAt` (GridEditor.tsx line 31): first node at grid cell (x, y). -/
def getNodeAt (nodes : List MindNode) (x y : Int) : Option MindNode :=
  nodes.find? (fun n => n.x == x && n.y == y)

/-- `nodes.find(n => n.id === id)` — the id lookup used throughout GridEditor. -/
def findNode (nodes : List MindNode) (i : Nat) : Option MindNode :=
  nodes.find? (fun n => n.id == i)

/-- `handleAttemptDrop` (GridEditor.tsx lines 86-96): validates bounds,
occupancy and king-move adjacency of a drop, and on success opens the
pending-placement input and clears the selection. -/
def handleAttemptDrop (st : EditorState) (x y : Int) (sourceNode : MindNode) :
    EditorState :=
  if x < 0 ∨ x ≥ GRID_SIZE ∨ y < 0 ∨ y ≥ GRID_SIZE then st
  else if (getNodeAt st.nodes x y).isSome then st
  else
    let dx := (sourceNode.x - x).natAbs
    let dy := (sourceNode.y - y).natAbs
    if dx ≤ 1 ∧ dy ≤ 1 ∧ (dx > 0 ∨ dy > 0) then
      { st with activeInput := some ⟨x, y, some sourceNode.id, false⟩,
                selectedNodeId := none }
    else st

/-- `handleCreateRoot` (GridEditor.tsx lines 98-102): opens the root
placement input at the center when the store is empty. -/
def handleCreateRoot (st : EditorState) : EditorState :=
  if st.nodes.length = 0 then
    { st with activeInput := some ⟨CENTER_COORD, CENTER_COORD, none, false⟩ }
  else st

/-- Clicking a grid cell. The `onClick` handler is attached to a cell only
when the cell is empty, is the center, and the store is empty
(GridEditor.tsx line 256: `(!node && isCenter && nodes.length === 0)`);
otherwise the click does nothing. -/
def handleCellClick (st : EditorState) (x y : Int) : EditorState :=
  if (getNodeAt st.nodes x y).isNone ∧ x = CENTER_COORD ∧ y = CENTER_COORD ∧
      st.nodes.length = 0 then
    handleCreateRoot st
  else st

/-- `handleSaveNode` (GridEditor.tsx lines 104-149): the confirm step of the
input popup. With an editing descriptor and a selection it rewrites the
selected node's content/color; otherwise it derives the child color from
the parent's current child count and appends a fresh node. -/
def handleSaveNode (st : EditorState) (content : String) (color : Hsl)
    (now : Nat) : EditorState :=
  match st.activeInput with
  | none => st
  | some ai =>
    if ai.isEditing ∧ st.selectedNodeId.isSome then
      let updatedNodes := st.nodes.map fun n =>
        if st.selectedNodeId == some n.id then
          { n with content := content, color := color }
        else n
      { st with nodes := updatedNodes, activeInput := none }
    else
      let parent : Option MindNode :=
        match ai.parentId with
        | some pid => findNode st.nodes pid
        | none => none
      let finalColor : Hsl :=
        match parent with
        | some p =>
          let siblings := st.nodes.filter fun n => n.parentId == some p.id
          if siblings.length > 0 then
            fadeColor (adjustHue p.color (45 * siblings.length)) 0.15
          else
            fadeColor p.color 0.15
        | none => color
      let depth : Nat :=
        match parent with
        | some p => p.depth + 1
        | none => 0
      let newNode : MindNode :=
        { id := st.nextId, x := ai.x, y := ai.y, content := content,
          color := finalColor, parentId := ai.parentId, depth := depth,
          timestamp := now }
      { st with nodes := st.nodes ++ [newNode], activeInput := none,
                selectedNodeId := some newNode.id, nextId := st.nextId + 1 }

/-- The recursive `getDescendantIds` closure inside `handleDeleteNode`
(GridEditor.tsx lines 153-158). The JS recursion is unbounded; the
embedding bounds it with explicit fuel, and `handleDeleteNode` passes
`nodes.length`, which is proved sufficient on tree-shaped stores. -/
def getDescendantIds (nodes : List MindNode) (fuel : Nat) (parentId : Nat) :
    List Nat :=
  match fuel with
  | 0 => []
  | fuel + 1 =>
    let childIds := (nodes.filter fun n => n.parentId == some parentId).map (·.id)
    childIds ++ childIds.flatMap fun cid => getDescendantIds nodes fuel cid

/-- `handleDeleteNode` (GridEditor.tsx lines 151-167): removes the node and
its transitive descendants, clearing selection and hover. -/
def handleDeleteNode (st : EditorState) (id : Nat) : EditorState :=
  let idsToDelete := id :: getDescendantIds st.nodes st.nodes.length id
  { st with nodes := st.nodes.filter fun n => !(idsToDelete.contains n.id),
            selectedNodeId := none, hoveredNodeId := none }

/-- `handleEditSelected` (GridEditor.tsx lines 169-179): opens the editing
input over the selected node, prefilled with its position and parent. -/
def handleEditSelected (st : EditorState) : EditorState :=
  match st.selectedNodeId with
  | none => st
  | some sid =>
    match findNode st.nodes sid with
    | none => st
    | some node =>
      { st with activeInput := some ⟨node.x, node.y, node.parentId, true⟩ }

/-- `handlePointerDown` (GridEditor.tsx lines 33-49) for a primary-button
press on an existing node: starts a drag with the node's center as current
position and resets the drag-movement flag. -/
def handlePointerDown (st : EditorState) (nodeId : Nat) : EditorState :=
  match findNode st.nodes nodeId with
  | none => st
  | some node =>
    { st with
      dragState := some ⟨nodeId, (node.x : ℚ) * CELL_PERCENT + HALF_CELL,
                         (node.y : ℚ) * CELL_PERCENT + HALF_CELL⟩,
      isDragging := false }

/-- `handleContainerPointerMove` (GridEditor.tsx lines 51-58): any move
while a drag is active marks drag intent and updates the live position
(given here in container percent units). -/
def handleContainerPointerMove (st : EditorState) (px py : ℚ) : EditorState :=
  match st.dragState with
  | none => st
  | some ds =>
    { st with isDragging := true,
              dragState := some { ds with currentPosX := px, currentPosY := py } }

/-- `handleContainerPointerUp` (GridEditor.tsx lines 60-84). `inRect` says
whether the release point lies inside the container rectangle; `xPct`/`yPct`
are the release point as fractions of the container. A moved drag attempts
a drop on the cell under the pointer; a pure click selects the source node
and clears any pending input. -/
def handleContainerPointerUp (st : EditorState) (inRect : Bool)
    (xPct yPct : ℚ) : EditorState :=
  match st.dragState with
  | none => st
  | some ds =>
    let sourceNode := findNode st.nodes ds.sourceNodeId
    let st' :=
      if st.isDragging then
        match sourceNode with
        | some src =>
          if inRect then
            handleAttemptDrop st (Int.floor (xPct * (GRID_SIZE : ℚ)))
              (Int.floor (yPct * (GRID_SIZE : ℚ))) src
          else st
        | none => st
      else
        { st with selectedNodeId := some ds.sourceNodeId, activeInput := none }
    { st' with dragState := none, isDragging := false }

/-- The public events of the editor, as dispatched by the rendered UI. -/
inductive Op where
  | pointerDown (nodeId : Nat)
  | pointerMove (px py : ℚ)
  | pointerUp (inRect : Bool) (xPct yPct : ℚ)
  | cellClick (x y : Int)
  | saveNode (content : String) (color : Hsl) (now : Nat)
  | cancelInput
  | editSelected
  | deleteSelected
  | hoverEnter (nodeId : Nat)
  | hoverLeave
deriving Repr

/-- One UI event. The guards mirror where the source attaches the handlers:
`deleteSelected` corresponds to the delete button, rendered only when
`selectedNode = nodes.find(n => n.id === selectedNodeId)` exists
(GridEditor.tsx lines 321, 361, 378); `hoverEnter` fires only on occupied
cells (line 257); `cancelInput` is the popup's cancel (line 312). -/
def step (st : EditorState) (op : Op) : EditorState :=
  match op with
  | .pointerDown nid => handlePointerDown st nid
  | .pointerMove px py => handleContainerPointerMove st px py
  | .pointerUp inRect xPct yPct => handleContainerPointerUp st inRect xPct yPct
  | .cellClick x y => handleCellClick st x y
  | .saveNode content color now => handleSaveNode st content color now
  | .cancelInput => { st with activeInput := none }
  | .editSelected => handleEditSelected st
  | .deleteSelected =>
    match st.selectedNodeId with
    | some sid =>
      match findNode st.nodes sid with
      | some _ => handleDeleteNode st sid
      | none => st
    | none => st
  | .hoverEnter nid =>
    match findNode st.nodes nid with
    | some _ => { st with hoveredNodeId := some nid }
    | none => st
  | .hoverLeave => { st with hoveredNodeId := none }

/-- The editor mounted on an empty map: no nodes, no input, no selection. -/
def initialState : EditorState :=
  { nodes := [], activeInput := none, selectedNodeId := none,
    hoveredNodeId := none, dragState := none, isDragging := false, nextId := 0 }

/-- Run a sequence of UI events from the empty store. -/
def run (ops : List Op) : EditorState :=
  ops.foldl step initialState

/-- JS `String.prototype.trim` on the character list: drop whitespace from
both ends. -/
def jsTrimList (cs : List Char) : List Char :=
  ((cs.dropWhile Char.isWhitespace).reverse.dropWhile Char.isWhitespace).reverse

/-- JS `String.prototype.trim`. -/
def jsTrim (s : String) : String := String.mk (jsTrimList s.data)

/-- JS `String.prototype.split` with separator `'|'`, on the character
list: `split` of the empty string is `[""]`, and every separator opens a
new group. -/
def splitBar : List Char → List (List Char)
  | [] => [[]]
  | c :: cs =>
    match splitBar cs with
    | [] => [[]]
    | g :: gs => if c = '|' then [] :: g :: gs else (c :: g) :: gs

/-- JS `text.split('|')`. -/
def jsSplitBar (s : String) : List String := (splitBar s.data).map String.mk

/-- `handleSubmit` of the node input popup (NodeInput.tsx lines 27-32):
invokes `onSave(content, selectedColor)` exactly when the trimmed content
is truthy (non-empty); otherwise nothing happens. Returned value is the
argument pair passed to `onSave`, or `none` when the submit is a no-op. -/
def nodeInputSubmit (content : String) (selectedColor : Hsl) :
    Option (String × Hsl) :=
  if jsTrim content ≠ "" then some (content, selectedColor) else none

/-- `getSuggestedThoughts` (src/services/geminiService.ts). The external
API call is modelled by its observable outcome: `hasKey` is whether
`process.env.API_KEY` is set, and `apiResult` is the generate-content call's
outcome — `Except.error` for a thrown error, `Except.ok t` for a response
whose `.text` field is `t` (with `none` for an absent text, coalesced to
`""` by `response.text || ""`). The content and context arguments only feed
the prompt and cannot affect the control flow. -/
def getSuggestedThoughts (currentContent : String)
    (contextNodes : List MindNode) (hasKey : Bool)
    (apiResult : Except Unit (Option String)) : List String :=
  if hasKey = false then ["请检查 API Key"]
  else
    match apiResult with
    | .error _ => []
    | .ok t =>
      ((jsSplitBar (t.getD "")).map jsTrim).filter fun sug => sug.length > 0

/-- A sample base color for concrete witnesses. -/
def sampleColor : Hsl := { hue := 200, sat := 1, light := 0 }

/-- Claim C2. `handleAttemptDrop` opens the pending-placement input (with
the target cell and the source as parent, clearing the selection) exactly
when the target is in bounds, unoccupied, and at Chebyshev distance exactly
1 from the source; in every other case the state is unchanged. -/
theorem claim_C2_attempt_drop_iff (st : EditorState) (x y : Int)
    (src : MindNode) :
    (0 ≤ x ∧ x < 7 ∧ 0 ≤ y ∧ y < 7 ∧ getNodeAt st.nodes x y = none ∧
        max (src.x - x).natAbs (src.y - y).natAbs = 1 →
      handleAttemptDrop st x y src =
        { st with activeInput := some ⟨x, y, some src.id, false⟩,
                  selectedNodeId := none }) ∧
    (¬(0 ≤ x ∧ x < 7 ∧ 0 ≤ y ∧ y < 7 ∧ getNodeAt st.nodes x y = none ∧
        max (src.x - x).natAbs (src.y - y).natAbs = 1) →
      handleAttemptDrop st x y src = st) := by
  constructor
  · rintro ⟨hx0, hx7, hy0, hy7, hfree, hcheb⟩
    unfold handleAttemptDrop
    rw [if_neg (by unfold GRID_SIZE; omega)]
    rw [hfree]
    simp only [Option.isSome_none, Bool.false_eq_true, if_false]
    rw [if_pos (by omega)]
  · intro hnot
    unfold handleAttemptDrop
    by_cases hb : x < 0 ∨ x ≥ GRID_SIZE ∨ y < 0 ∨ y ≥ GRID_SIZE
    · rw [if_pos hb]
    · rw [if_neg hb]
      unfold GRID_SIZE at hb
      by_cases hocc : (getNodeAt st.nodes x y).isSome
      · simp only [hocc, if_true]
      · simp only [hocc, Bool.false_eq_true, if_false]
        rw [if_neg]
        intro ⟨hdx, hdy, hpos⟩
        exact hnot ⟨by omega, by omega, by omega, by omega,
          Option.not_isSome_iff_eq_none.mp hocc, by omega⟩

/-- Claim C2 witness: dropping from the center node onto the adjacent free
cell (4, 3) opens the pending input, and dropping onto the distance-2 cell
(5, 3) changes nothing. -/
theorem claim_C2_attempt_drop_iff_witness :
    (handleAttemptDrop
        { initialState with
            nodes := [{ id := 0, x := 3, y := 3, content := "a",
                        color := sampleColor, parentId := none, depth := 0,
                        timestamp := 0 }] } 4 3
        { id := 0, x := 3, y := 3, content := "a", color := sampleColor,
          parentId := none, depth := 0, timestamp := 0 }).activeInput =
      some ⟨4, 3, some 0, false⟩ ∧
    handleAttemptDrop
        { initialState with
            nodes := [{ id := 0, x := 3, y := 3, content := "a",
                        color := sampleColor, parentId := none, depth := 0,
                        timestamp := 0 }] } 5 3
        { id := 0, x := 3, y := 3, content := "a", color := sampleColor,
          parentId := none, depth := 0, timestamp := 0 } =
      { initialState with
          nodes := [{ id := 0, x := 3, y := 3, content := "a",
                      color := sampleColor, parentId := none, depth := 0,
                      timestamp := 0 }] } := by
  constructor
  · rw [(claim_C2_attempt_drop_iff _ 4 3 _).1 (by decide)]
  · exact (claim_C2_attempt_drop_iff _ 5 3 _).2 (by decide)

/-- Id lookup characterization: a successful `findNode` returns a member
carrying the looked-up id. -/
theorem findNode_eq_some (nodes : List MindNode) (i : Nat) (p : MindNode)
    (h : findNode nodes i = some p) : p ∈ nodes ∧ p.id = i := by
  unfold findNode at h
  have hm := List.mem_of_find?_eq_some h
  have hp := List.find?_some h
  simp only [beq_iff_eq] at hp
  exact ⟨hm, hp⟩

/-- A fixed root node used by concrete witnesses. -/
def rootNode : MindNode :=
  { id := 0, x := 3, y := 3, content := "r", color := sampleColor,
    parentId := none, depth := 0, timestamp := 0 }

/-- A fixed depth-1 child of `rootNode` used by concrete witnesses. -/
def childNode : MindNode :=
  { id := 1, x := 4, y := 3, content := "c", color := sampleColor,
    parentId := some 0, depth := 1, timestamp := 1 }

/-- Claim C6. A pointer-down on an existing node followed directly by a
pointer-up with no intervening move (a pure click) selects the source node,
clears any pending input, ends the drag, and leaves the node collection
unchanged — no placement is attempted and no node is created. -/
theorem claim_C6_pure_click_selects (st : EditorState) (nid : Nat)
    (n : MindNode) (inRect : Bool) (xPct yPct : ℚ)
    (hfind : findNode st.nodes nid = some n) :
    (handleContainerPointerUp (handlePointerDown st nid) inRect
        xPct yPct).nodes = st.nodes ∧
    (handleContainerPointerUp (handlePointerDown st nid) inRect
        xPct yPct).selectedNodeId = some nid ∧
    (handleContainerPointerUp (handlePointerDown st nid) inRect
        xPct yPct).activeInput = none ∧
    (handleContainerPointerUp (handlePointerDown st nid) inRect
        xPct yPct).dragState = none := by
  unfold handlePointerDown handleContainerPointerUp
  rw [hfind]
  simp

/-- Claim C6 witness: clicking the only node of a one-node store selects it. -/
theorem claim_C6_pure_click_selects_witness :
    (handleContainerPointerUp
        (handlePointerDown { initialState with nodes := [rootNode] } 0)
        true 0 0).selectedNodeId = some 0 ∧
    (handleContainerPointerUp
        (handlePointerDown { initialState with nodes := [rootNode] } 0)
        true 0 0).nodes = [rootNode] := by
  have h := claim_C6_pure_click_selects
    { initialState with nodes := [rootNode] } 0 rootNode true 0 0 (by decide)
  exact ⟨h.2.1, h.1⟩

/-- Claim C7. The root-creation entry point (clicking a grid cell) is a
no-op when the store is non-empty or the target is not CENTER = (3, 3); on
an empty store, clicking the center opens the root placement input, and
confirming that input creates the sole node with `parentId = none` and
`depth = 0` at the center. -/
theorem claim_C7_root_creation (st : EditorState) (x y : Int)
    (st' : EditorState) (c : String) (col : Hsl) (now : Nat) :
    (st.nodes ≠ [] → handleCellClick st x y = st) ∧
    (¬(x = CENTER_COORD ∧ y = CENTER_COORD) → handleCellClick st x y = st) ∧
    (st.nodes = [] → handleCellClick st CENTER_COORD CENTER_COORD =
      { st with activeInput := some ⟨CENTER_COORD, CENTER_COORD, none, false⟩ }) ∧
    (st'.nodes = [] →
      st'.activeInput = some ⟨CENTER_COORD, CENTER_COORD, none, false⟩ →
      ∃ nn, (handleSaveNode st' c col now).nodes = [nn] ∧
        nn.parentId = none ∧ nn.depth = 0 ∧
        nn.x = CENTER_COORD ∧ nn.y = CENTER_COORD) := by
  refine ⟨?_, ?_, ?_, ?_⟩
  · intro hne
    unfold handleCellClick
    rw [if_neg]
    rintro ⟨-, -, -, hlen⟩
    exact hne (List.length_eq_zero.mp hlen)
  · intro hnc
    unfold handleCellClick
    rw [if_neg]
    rintro ⟨-, hx, hy, -⟩
    exact hnc ⟨hx, hy⟩
  · intro hnil
    unfold handleCellClick handleCreateRoot
    rw [if_pos ⟨by rw [hnil]; rfl, rfl, rfl, by rw [hnil]; rfl⟩,
      if_pos (by rw [hnil]; rfl)]
  · intro hnil hai
    refine ⟨{ id := st'.nextId, x := CENTER_COORD, y := CENTER_COORD,
              content := c, color := col, parentId := none, depth := 0,
              timestamp := now }, ?_, rfl, rfl, rfl, rfl⟩
    unfold handleSaveNode
    simp only [hai]
    rw [if_neg (by simp)]
    simp [hnil]

/-- Claim C7 witness: on the empty store, clicking (3, 3) opens the root
input and a click at (2, 2) is a no-op; saving the opened input yields a
single root node at the center. -/
theorem claim_C7_root_creation_witness :
    handleCellClick initialState 2 2 = initialState ∧
    handleCellClick initialState 3 3 =
      { initialState with activeInput := some ⟨3, 3, none, false⟩ } ∧
    (∃ nn, (handleSaveNode
        { initialState with activeInput := some ⟨3, 3, none, false⟩ }
        "idea" sampleColor 0).nodes = [nn] ∧
      nn.parentId = none ∧ nn.depth = 0 ∧ nn.x = 3 ∧ nn.y = 3) := by
  refine ⟨(claim_C7_root_creation initialState 2 2 initialState "idea"
      sampleColor 0).2.1 (by decide), ?_, ?_⟩
  · exact (claim_C7_root_creation initialState 3 3 initialState "idea"
      sampleColor 0).2.2.1 rfl
  · exact (claim_C7_root_creation initialState 3 3
      { initialState with activeInput := some ⟨3, 3, none, false⟩ }
      "idea" sampleColor 0).2.2.2 rfl rfl

/-- Claim C8. Confirming an editing descriptor rewrites only the selected
node's `content` and `color`: its `id`, position, `parentId`, `depth` and
`timestamp` are untouched, every node with a different id is entirely
unchanged, and the collection keeps its length (hence no node is added or
removed). -/
theorem claim_C8_edit_frame (st : EditorState) (ai : ActiveInput) (sid : Nat)
    (content : String) (color : Hsl) (now : Nat)
    (hai : st.activeInput = some ai) (hed : ai.isEditing = true)
    (hsel : st.selectedNodeId = some sid) :
    (handleSaveNode st content color now).nodes.length = st.nodes.length ∧
    ∀ i (h1 : i < st.nodes.length)
      (h2 : i < (handleSaveNode st content color now).nodes.length),
      ((handleSaveNode st content color now).nodes[i].id = st.nodes[i].id ∧
       (handleSaveNode st content color now).nodes[i].x = st.nodes[i].x ∧
       (handleSaveNode st content color now).nodes[i].y = st.nodes[i].y ∧
       (handleSaveNode st content color now).nodes[i].parentId =
         st.nodes[i].parentId ∧
       (handleSaveNode st content color now).nodes[i].depth =
         st.nodes[i].depth ∧
       (handleSaveNode st content color now).nodes[i].timestamp =
         st.nodes[i].timestamp) ∧
      (st.nodes[i].id ≠ sid →
        (handleSaveNode st content color now).nodes[i] = st.nodes[i]) := by
  have hres : (handleSaveNode st content color now).nodes =
      st.nodes.map fun n =>
        if st.selectedNodeId == some n.id then
          { n with content := content, color := color }
        else n := by
    unfold handleSaveNode
    simp only [hai]
    rw [if_pos (show ai.isEditing = true ∧ st.selectedNodeId.isSome = true from
      ⟨hed, by rw [hsel]; rfl⟩)]
  rw [hres]
  refine ⟨List.length_map _ _, ?_⟩
  intro i h1 h2
  rw [List.getElem_map]
  by_cases hid : st.nodes[i].id = sid
  · have hcond : (st.selectedNodeId == some st.nodes[i].id) = true := by
      rw [hsel, hid]; simp
    rw [if_pos hcond]
    exact ⟨⟨rfl, rfl, rfl, rfl, rfl, rfl⟩, fun hne => absurd hid hne⟩
  · have hcond : ¬((st.selectedNodeId == some st.nodes[i].id) = true) := by
      rw [hsel]
      simp only [beq_iff_eq, Option.some.injEq]
      exact fun h => hid h.symm
    rw [if_neg hcond]
    exact ⟨⟨rfl, rfl, rfl, rfl, rfl, rfl⟩, fun _ => rfl⟩

/-- The concrete editor state used by the C8 witness: a two-node store with
the root selected and an editing descriptor open over it. -/
def editWitnessState : EditorState :=
  { initialState with
      nodes := [rootNode, childNode],
      activeInput := some ⟨3, 3, none, true⟩,
      selectedNodeId := some 0, nextId := 2 }

/-- Claim C8 witness: editing the root of a two-node store keeps the length
and leaves the child untouched. -/
theorem claim_C8_edit_frame_witness :
    (handleSaveNode editWitnessState "new" sampleColor 5).nodes.length = 2 ∧
    (handleSaveNode editWitnessState "new" sampleColor 5).nodes.get
      ⟨1, by decide⟩ = childNode := by
  have h := claim_C8_edit_frame editWitnessState
    ⟨3, 3, none, true⟩ 0 "new" sampleColor 5 rfl rfl rfl
  refine ⟨h.1, ?_⟩
  have h3 := (h.2 1 (by decide) (by decide)).2 (by decide)
  exact h3.trans (by decide)

/-- Claim C4. Confirming a child placement under parent `p` derives the new
node's color from `p`'s current child count `k` (the filter below): when
`k = 0` the child color is the parent's color faded 15% toward white; when
`k ≥ 1` the parent's hue is first rotated by `45° × k` (mod 360, other
components unchanged) and the same fade is applied. The created node is
appended with `depth = p.depth + 1`. -/
theorem claim_C4_branch_color (st : EditorState) (ai : ActiveInput) (pid : Nat)
    (p : MindNode) (content : String) (color : Hsl) (now : Nat)
    (hai : st.activeInput = some ai) (hed : ai.isEditing = false)
    (hpid : ai.parentId = some pid) (hp : findNode st.nodes pid = some p) :
    (handleSaveNode st content color now).nodes =
      st.nodes ++
        [{ id := st.nextId, x := ai.x, y := ai.y, content := content,
           color :=
             if 0 < (st.nodes.filter fun n => n.parentId == some pid).length
             then
               fadeColor
                 (adjustHue p.color
                   (45 * (st.nodes.filter fun n =>
                     n.parentId == some pid).length))
                 0.15
             else fadeColor p.color 0.15,
           parentId := some pid, depth := p.depth + 1, timestamp := now }] := by
  obtain ⟨hpmem, hpideq⟩ := findNode_eq_some _ _ _ hp
  unfold handleSaveNode
  simp only [hai]
  rw [if_neg (by simp [hed])]
  simp only [hpid, hp, hpideq]

/-- The concrete editor state used by the C4 witness: a two-node store
(root plus one child of the root) with a pending placement under the root. -/
def branchWitnessState : EditorState :=
  { initialState with
      nodes := [rootNode, childNode],
      activeInput := some ⟨2, 3, some 0, false⟩, nextId := 2 }

/-- Claim C4 witness: placing a second child under the root (which already
has one child) appends a node whose color is the root's color hue-rotated
by 45° and then faded, with depth 1. -/
theorem claim_C4_branch_color_witness :
    (handleSaveNode branchWitnessState "b" sampleColor 7).nodes =
      [rootNode, childNode] ++
        [{ id := 2, x := 2, y := 3, content := "b",
           color :=
             if 0 < ([rootNode, childNode].filter fun n =>
                 n.parentId == some 0).length
             then
               fadeColor
                 (adjustHue rootNode.color
                   (45 * ([rootNode, childNode].filter fun n =>
                     n.parentId == some 0).length))
                 0.15
             else fadeColor rootNode.color 0.15,
           parentId := some 0, depth := rootNode.depth + 1,
           timestamp := 7 }] :=
  claim_C4_branch_color branchWitnessState ⟨2, 3, some 0, false⟩ 0 rootNode
    "b" sampleColor 7 rfl rfl rfl (by decide)

/-- Claim C5 counterexample. A pending non-editing descriptor whose target
cell (4, 3) is occupied: the confirm step does not fail — it appends a new
node anyway (the collection grows from 2 to 3 nodes), so no
`TargetNowOccupied` rejection exists in the code. -/
theorem claim_C5_counterexample :
    (getNodeAt [rootNode, childNode] 4 3).isSome = true ∧
    ([rootNode, childNode] : List MindNode).length = 2 ∧
    (handleSaveNode
        { initialState with
            nodes := [rootNode, childNode],
            activeInput := some ⟨4, 3, some 0, false⟩, nextId := 2 }
        "late" sampleColor 9).nodes.length = 3 := by
  refine ⟨by decide, by decide, ?_⟩
  show (_ ++ [_]).length = 3
  rw [List.length_append]
  decide

/-- Claim C9 counterexample. With the API credential missing, the
suggestion call does not surface the failure as an empty list: it returns
the one-element list `["请检查 API Key"]`, which the popup renders as a
clickable suggestion. -/
theorem claim_C9_counterexample :
    getSuggestedThoughts "" [] false (Except.ok none) = ["请检查 API Key"] ∧
    getSuggestedThoughts "" [] false (Except.ok none) ≠ [] := by
  refine ⟨rfl, ?_⟩
  intro h
  simp [getSuggestedThoughts] at h

/-- Claim C9 (amended). The suggestion call is a total function returning a
finite list for every input: a thrown API error is swallowed and surfaced
as the empty list, while a missing credential is surfaced as the fixed
single-message list `["请检查 API Key"]` (not the empty list); in neither
case is an error raised or placement blocked. -/
theorem claim_C9_amended (c : String) (ns : List MindNode)
    (r : Except Unit (Option String)) :
    getSuggestedThoughts c ns false r = ["请检查 API Key"] ∧
    getSuggestedThoughts c ns true (Except.error ()) = [] := by
  exact ⟨rfl, rfl⟩

/-- Claim C10. The node-input submit invokes `onSave` if and only if the
entered content is non-empty after trimming: whitespace-only content makes
the submit a no-op, and whenever `onSave` is invoked the saved content has
non-blank trim, so no node is ever created or edited to hold empty or
whitespace-only content through the popup. -/
theorem claim_C10_submit_iff (content : String) (col : Hsl) :
    (jsTrim content = "" → nodeInputSubmit content col = none) ∧
    (jsTrim content ≠ "" → nodeInputSubmit content col = some (content, col)) ∧
    (∀ p, nodeInputSubmit content col = some p → jsTrim p.1 ≠ "") := by
  refine ⟨?_, ?_, ?_⟩
  · intro h
    unfold nodeInputSubmit
    rw [if_neg (by simp [h])]
  · intro h
    unfold nodeInputSubmit
    rw [if_pos h]
  · intro p hp
    unfold nodeInputSubmit at hp
    by_cases h : jsTrim content ≠ ""
    · rw [if_pos h] at hp
      obtain rfl : (content, col) = p := Option.some.inj hp
      exact h
    · rw [if_neg h] at hp
      exact absurd hp (by simp)

/-- Claim C10 witness: a whitespace-only submit is a no-op, and a
non-blank submit passes the content through. -/
theorem claim_C10_submit_iff_witness :
    nodeInputSubmit "  " sampleColor = none ∧
    nodeInputSubmit " hi " sampleColor = some (" hi ", sampleColor) :=
  ⟨(claim_C10_submit_iff "  " sampleColor).1 (by decide),
   (claim_C10_submit_iff " hi " sampleColor).2.1 (by decide)⟩

/-- All node ids in the store are pairwise distinct. -/
def idsNodup (nodes : List MindNode) : Prop :=
  nodes.Pairwise fun a b => a.id ≠ b.id

/-- No two nodes occupy the same grid cell. -/
def posNodup (nodes : List MindNode) : Prop :=
  nodes.Pairwise fun a b => a.x ≠ b.x ∨ a.y ≠ b.y

/-- Every non-root node's parent id resolves to a member of the store whose
depth is one less. -/
def parentOk (nodes : List MindNode) : Prop :=
  ∀ n ∈ nodes, ∀ pid, n.parentId = some pid →
    ∃ p, p ∈ nodes ∧ p.id = pid ∧ n.depth = p.depth + 1

/-- Every root (a node without parent) sits at the center with depth 0. -/
def rootOk (nodes : List MindNode) : Prop :=
  ∀ n ∈ nodes, n.parentId = none →
    n.depth = 0 ∧ n.x = CENTER_COORD ∧ n.y = CENTER_COORD

/-- A non-empty store contains a root. -/
def rootExists (nodes : List MindNode) : Prop :=
  nodes = [] ∨ ∃ r, r ∈ nodes ∧ r.parentId = none

/-- Fuel-bounded parent-chain reachability: `leadsTo nodes f n tid` holds
when following `parentId` links from `n` (resolving ids through the store)
reaches a node whose id is `tid` within `f` steps. -/
def leadsTo (nodes : List MindNode) (fuel : Nat) (n : MindNode)
    (tid : Nat) : Bool :=
  match fuel with
  | 0 => false
  | fuel + 1 =>
    (n.parentId).elim false fun pid =>
      pid == tid ||
        (findNode nodes pid).elim false fun p => leadsTo nodes fuel p tid

/-- Two members of a duplicate-id-free store with equal ids are equal. -/
theorem id_inj {nodes : List MindNode} {a b : MindNode} (h : idsNodup nodes)
    (ha : a ∈ nodes) (hb : b ∈ nodes) (hid : a.id = b.id) : a = b := by
  by_contra hne
  exact (List.Pairwise.forall (fun x y hxy => Ne.symm hxy) h) ha hb hne hid

/-- Two members of an overlap-free store in the same cell are equal. -/
theorem pos_inj {nodes : List MindNode} {a b : MindNode} (h : posNodup nodes)
    (ha : a ∈ nodes) (hb : b ∈ nodes) (hx : a.x = b.x) (hy : a.y = b.y) :
    a = b := by
  by_contra hne
  rcases (List.Pairwise.forall (fun x y hxy => hxy.imp Ne.symm Ne.symm) h)
      ha hb hne with hnx | hny
  · exact hnx hx
  · exact hny hy

/-- In a duplicate-id-free store, looking up a member's id finds it. -/
theorem findNode_eq_of_mem {nodes : List MindNode} {p : MindNode}
    (h : idsNodup nodes) (hp : p ∈ nodes) : findNode nodes p.id = some p := by
  induction nodes with
  | nil => cases hp
  | cons a t ih =>
    rcases List.mem_cons.mp hp with rfl | hpt
    · unfold findNode
      rw [List.find?_cons_of_pos]
      simp
    · have hne : a.id ≠ p.id := (List.pairwise_cons.mp h).1 p hpt
      unfold findNode
      rw [List.find?_cons_of_neg _ (by simpa using hne)]
      exact ih (List.pairwise_cons.mp h).2 hpt

/-- An empty `getNodeAt` answer means no member occupies the cell. -/
theorem getNodeAt_eq_none_iff {nodes : List MindNode} {x y : Int} :
    getNodeAt nodes x y = none ↔ ∀ n ∈ nodes, ¬(n.x = x ∧ n.y = y) := by
  unfold getNodeAt
  rw [List.find?_eq_none]
  constructor
  · intro h n hn hxy
    exact h n hn (by simp [hxy.1, hxy.2])
  · intro h n hn hb
    simp only [Bool.and_eq_true, beq_iff_eq] at hb
    exact h n hn ⟨hb.1, hb.2⟩

/-- A successful `getNodeAt` answer is a member occupying the cell. -/
theorem getNodeAt_eq_some {nodes : List MindNode} {x y : Int} {n : MindNode}
    (h : getNodeAt nodes x y = some n) : n ∈ nodes ∧ n.x = x ∧ n.y = y := by
  unfold getNodeAt at h
  have hm := List.mem_of_find?_eq_some h
  have hp := List.find?_some h
  simp only [Bool.and_eq_true, beq_iff_eq] at hp
  exact ⟨hm, hp.1, hp.2⟩


/-- With no fuel, no chain is found. -/
theorem leadsTo_zero (nodes : List MindNode) (n : MindNode) (tid : Nat) :
    leadsTo nodes 0 n tid = false := rfl

/-- Unfolding one step of `leadsTo` at positive fuel. -/
theorem leadsTo_succ_eq (nodes : List MindNode) (n : MindNode) (tid f : Nat) :
    leadsTo nodes (f + 1) n tid =
      ((n.parentId).elim false fun pid =>
        pid == tid ||
          (findNode nodes pid).elim false fun p => leadsTo nodes f p tid) :=
  rfl

/-- Unfolding a chain step at a node without parent. -/
theorem leadsTo_eq_of_root {nodes : List MindNode} {n : MindNode}
    {tid f : Nat} (h : n.parentId = none) :
    leadsTo nodes (f + 1) n tid = false := by
  rw [leadsTo_succ_eq, h]
  rfl

/-- Unfolding a chain step at a node with a parent id. -/
theorem leadsTo_eq_of_parent {nodes : List MindNode} {n : MindNode}
    {pid tid f : Nat} (h : n.parentId = some pid) :
    leadsTo nodes (f + 1) n tid =
      (pid == tid ||
        (findNode nodes pid).elim false fun p => leadsTo nodes f p tid) := by
  rw [leadsTo_succ_eq, h]
  rfl

/-- A direct child reaches its parent id in one step (any positive fuel). -/
theorem leadsTo_direct {nodes : List MindNode} {n : MindNode} {tid : Nat}
    (f : Nat) (h : n.parentId = some tid) :
    leadsTo nodes (f + 1) n tid = true := by
  rw [leadsTo_eq_of_parent h]
  simp

/-- Extending a chain downward by one explicit parent step. -/
theorem leadsTo_step {nodes : List MindNode} {n p : MindNode} {pid tid : Nat}
    {f : Nat} (hpar : n.parentId = some pid)
    (hfind : findNode nodes pid = some p)
    (h : leadsTo nodes f p tid = true) :
    leadsTo nodes (f + 1) n tid = true := by
  rw [leadsTo_eq_of_parent hpar, hfind]
  simp [h]

/-- Destructing a successful chain: the first step is either the target or
goes through the resolved parent. -/
theorem leadsTo_succ_iff {nodes : List MindNode} {n : MindNode} {tid f : Nat} :
    leadsTo nodes (f + 1) n tid = true ↔
      ∃ pid, n.parentId = some pid ∧
        (pid = tid ∨ ∃ p, findNode nodes pid = some p ∧
          leadsTo nodes f p tid = true) := by
  constructor
  · intro h
    cases hpar : n.parentId with
    | none => rw [leadsTo_eq_of_root hpar] at h; cases h
    | some pid =>
      rw [leadsTo_eq_of_parent hpar] at h
      rcases Bool.or_eq_true_iff.mp h with h1 | h2
      · exact ⟨pid, rfl, Or.inl (by simpa using h1)⟩
      · cases hfind : findNode nodes pid with
        | none => rw [hfind] at h2; cases h2
        | some p =>
          rw [hfind] at h2
          exact ⟨pid, rfl, Or.inr ⟨p, hfind, h2⟩⟩
  · rintro ⟨pid, hpar, h⟩
    rcases h with rfl | ⟨p, hfind, hl⟩
    · exact leadsTo_direct f hpar
    · exact leadsTo_step hpar hfind hl

/-- Appending one upward step at the far end of a chain: if `m` reaches the
id of `c` and `c`'s parent id is `tid`, then `m` reaches `tid`. -/
theorem leadsTo_trans_parent {nodes : List MindNode} {m c : MindNode}
    {cid tid : Nat} :
    ∀ f, leadsTo nodes f m cid = true → findNode nodes cid = some c →
      c.parentId = some tid → ∃ g, leadsTo nodes g m tid = true := by
  intro f
  induction f generalizing m with
  | zero => intro h; cases h
  | succ f ih =>
    intro h hc hcp
    obtain ⟨pid, hpar, hcase⟩ := leadsTo_succ_iff.mp h
    rcases hcase with rfl | ⟨p, hfind, hl⟩
    · exact ⟨2, leadsTo_step hpar hc (leadsTo_direct 0 hcp)⟩
    · obtain ⟨g, hg⟩ := ih hl hc hcp
      exact ⟨g + 1, leadsTo_step hpar hfind hg⟩

/-- On a well-parented store, any successful chain can be normalized to use
the node's own depth as fuel. -/
theorem leadsTo_depth {nodes : List MindNode} (hid : idsNodup nodes)
    (hpo : parentOk nodes) {tid : Nat} :
    ∀ f, ∀ m, m ∈ nodes → leadsTo nodes f m tid = true →
      leadsTo nodes m.depth m tid = true := by
  intro f
  induction f with
  | zero => intro m _ h; cases h
  | succ f ih =>
    intro m hm h
    obtain ⟨pid, hpar, hcase⟩ := leadsTo_succ_iff.mp h
    obtain ⟨p, hpmem, hpid, hdep⟩ := hpo m hm pid hpar
    have hfind : findNode nodes pid = some p := by
      rw [← hpid]; exact findNode_eq_of_mem hid hpmem
    rcases hcase with rfl | ⟨p', hfind', hl⟩
    · rw [hdep]
      exact leadsTo_direct p.depth hpar
    · have hpp : p' = p := by
        rw [hfind] at hfind'
        exact (Option.some.inj hfind').symm
      subst hpp
      rw [hdep]
      exact leadsTo_step hpar hfind (ih p' hpmem hl)

/-- On a well-parented store, depth strictly decreases along a chain: the
target of a successful chain is strictly shallower than its start. -/
theorem leadsTo_depth_lt {nodes : List MindNode} (hid : idsNodup nodes)
    (hpo : parentOk nodes) {tid : Nat} {t : MindNode} :
    ∀ f, ∀ m, m ∈ nodes → leadsTo nodes f m tid = true →
      findNode nodes tid = some t → t.depth < m.depth := by
  intro f
  induction f with
  | zero => intro m _ h; cases h
  | succ f ih =>
    intro m hm h ht
    obtain ⟨pid, hpar, hcase⟩ := leadsTo_succ_iff.mp h
    obtain ⟨p, hpmem, hpid, hdep⟩ := hpo m hm pid hpar
    have hfind : findNode nodes pid = some p := by
      rw [← hpid]; exact findNode_eq_of_mem hid hpmem
    rcases hcase with rfl | ⟨p', hfind', hl⟩
    · rw [ht] at hfind
      have htp : t = p := Option.some.inj hfind
      rw [htp]
      omega
    · have hpp : p' = p := by
        rw [hfind] at hfind'
        exact (Option.some.inj hfind').symm
      subst hpp
      have := ih p' hpmem hl ht
      omega

/-- A successful chain factors through a direct child of the target: either
the start itself is that child, or the start reaches the child by a
strictly shorter chain. -/
theorem leadsTo_decomp {nodes : List MindNode} {tid : Nat} :
    ∀ f, ∀ m, m ∈ nodes → leadsTo nodes f m tid = true →
      ∃ c, c ∈ nodes ∧ c.parentId = some tid ∧
        (m = c ∨ ∃ f', f' < f ∧ leadsTo nodes f' m c.id = true) := by
  intro f
  induction f with
  | zero => intro m _ h; cases h
  | succ f ih =>
    intro m hm h
    obtain ⟨pid, hpar, hcase⟩ := leadsTo_succ_iff.mp h
    rcases hcase with rfl | ⟨p, hfind, hl⟩
    · exact ⟨m, hm, hpar, Or.inl rfl⟩
    · obtain ⟨hpmem, hpid⟩ := findNode_eq_some _ _ _ hfind
      obtain ⟨c, hcmem, hcpar, hcase'⟩ := ih p hpmem hl
      refine ⟨c, hcmem, hcpar, Or.inr ?_⟩
      rcases hcase' with rfl | ⟨f', hf', hl'⟩
      · have hf1 : 0 < f := by
          by_contra h0
          have hf0 : f = 0 := by omega
          subst hf0
          cases hl
        exact ⟨1, by omega, leadsTo_direct 0 (by rw [hpar, hpid])⟩
      · exact ⟨f' + 1, by omega, leadsTo_step hpar hfind hl'⟩

/-- Unfolding `getDescendantIds` at positive fuel. -/
theorem getDescendantIds_succ_eq (nodes : List MindNode) (fuel pid : Nat) :
    getDescendantIds nodes (fuel + 1) pid =
      ((nodes.filter fun n => n.parentId == some pid).map (·.id)) ++
        ((nodes.filter fun n => n.parentId == some pid).map (·.id)).flatMap
          (fun cid => getDescendantIds nodes fuel cid) := rfl

/-- The direct-children id list of `pid` contains exactly the ids of
members whose parent id is `pid`. -/
theorem mem_childIds_iff {nodes : List MindNode} {pid cid : Nat} :
    cid ∈ ((nodes.filter fun n => n.parentId == some pid).map (·.id)) ↔
      ∃ c, c ∈ nodes ∧ c.parentId = some pid ∧ c.id = cid := by
  constructor
  · intro h
    obtain ⟨c, hc, rfl⟩ := List.mem_map.mp h
    have hcf := List.mem_filter.mp hc
    exact ⟨c, hcf.1, by simpa using hcf.2, rfl⟩
  · rintro ⟨c, hcm, hcp, rfl⟩
    exact List.mem_map_of_mem _ (List.mem_filter.mpr ⟨hcm, by simpa using hcp⟩)

/-- Soundness of the descendant computation: every collected id belongs to
a member that reaches `pid` through its parent chain. -/
theorem descend_sound {nodes : List MindNode} (hid : idsNodup nodes) :
    ∀ fuel pid cid, cid ∈ getDescendantIds nodes fuel pid →
      ∃ m, m ∈ nodes ∧ m.id = cid ∧ ∃ f, leadsTo nodes f m pid = true := by
  intro fuel
  induction fuel with
  | zero =>
    intro pid cid h
    exact absurd h (List.not_mem_nil cid)
  | succ fuel ih =>
    intro pid cid h
    rw [getDescendantIds_succ_eq] at h
    rcases List.mem_append.mp h with h1 | h2
    · obtain ⟨c, hcm, hcp, rfl⟩ := mem_childIds_iff.mp h1
      exact ⟨c, hcm, rfl, 1, leadsTo_direct 0 hcp⟩
    · obtain ⟨cid', hcid', hmem⟩ := List.mem_flatMap.mp h2
      obtain ⟨c', hc'm, hc'p, rfl⟩ := mem_childIds_iff.mp hcid'
      obtain ⟨m, hmm, hmid, f, hf⟩ := ih c'.id cid hmem
      have hcfind : findNode nodes c'.id = some c' := findNode_eq_of_mem hid hc'm
      obtain ⟨g, hg⟩ := leadsTo_trans_parent f hf hcfind hc'p
      exact ⟨m, hmm, hmid, g, hg⟩

/-- Completeness of the descendant computation: a member reaching `tid`
within the fuel bound is collected. -/
theorem descend_complete {nodes : List MindNode} :
    ∀ f, ∀ m, m ∈ nodes → ∀ tid fuel, leadsTo nodes f m tid = true →
      f ≤ fuel → m.id ∈ getDescendantIds nodes fuel tid := by
  intro f
  induction f using Nat.strong_induction_on with
  | _ f IH =>
    intro m hm tid fuel hl hle
    rcases f with _ | f
    · cases hl
    rcases fuel with _ | fu
    · omega
    obtain ⟨c, hcmem, hcpar, hcase⟩ := leadsTo_decomp (f + 1) m hm hl
    rw [getDescendantIds_succ_eq]
    rcases hcase with rfl | ⟨f', hf', hl'⟩
    · exact List.mem_append.mpr (Or.inl (mem_childIds_iff.mpr ⟨m, hm, hcpar, rfl⟩))
    · refine List.mem_append.mpr (Or.inr (List.mem_flatMap.mpr
        ⟨c.id, mem_childIds_iff.mpr ⟨c, hcmem, hcpar, rfl⟩, ?_⟩))
      exact IH f' (by omega) m hm c.id fu hl' (by omega)

/-- On a tree-shaped store, every member heads a chain of `depth + 1`
pairwise-distinct members of bounded depth (its ancestor chain). -/
theorem depth_chain {nodes : List MindNode} (hid : idsNodup nodes)
    (hpo : parentOk nodes) (hro : rootOk nodes) :
    ∀ d, ∀ m, m ∈ nodes → m.depth = d →
      ∃ l : List MindNode, l.Nodup ∧ (∀ a ∈ l, a ∈ nodes) ∧
        l.length = d + 1 ∧ (∀ a ∈ l, a.depth ≤ d) := by
  intro d
  induction d using Nat.strong_induction_on with
  | _ d IH =>
    intro m hm hd
    cases hpar : m.parentId with
    | none =>
      have h0 := (hro m hm hpar).1
      have hd0 : d = 0 := by omega
      subst hd0
      exact ⟨[m], List.nodup_singleton m,
        by intro a ha; rw [List.mem_singleton.mp ha]; exact hm,
        rfl,
        by intro a ha; rw [List.mem_singleton.mp ha]; omega⟩
    | some pid =>
      obtain ⟨p, hpmem, hpid, hdep⟩ := hpo m hm pid hpar
      have hdp : p.depth < d := by omega
      obtain ⟨l, hnd, hsub, hlen, hdepth⟩ := IH p.depth hdp p hpmem rfl
      refine ⟨m :: l, ?_, ?_, ?_, ?_⟩
      · refine List.nodup_cons.mpr ⟨?_, hnd⟩
        intro hmem
        have := hdepth m hmem
        omega
      · intro a ha
        rcases List.mem_cons.mp ha with rfl | h
        · exact hm
        · exact hsub a h
      · simp only [List.length_cons, hlen]
        omega
      · intro a ha
        rcases List.mem_cons.mp ha with rfl | h
        · omega
        · have := hdepth a h
          omega

/-- On a tree-shaped store, depths are bounded by the store size. -/
theorem depth_lt_length {nodes : List MindNode} {m : MindNode}
    (hid : idsNodup nodes) (hpo : parentOk nodes) (hro : rootOk nodes)
    (hm : m ∈ nodes) : m.depth < nodes.length := by
  obtain ⟨l, hnd, hsub, hlen, -⟩ := depth_chain hid hpo hro m.depth m hm rfl
  have h1 : l.toFinset.card = l.length := List.toFinset_card_of_nodup hnd
  have h2 : l.toFinset ⊆ nodes.toFinset := by
    intro a ha
    exact List.mem_toFinset.mpr (hsub a (List.mem_toFinset.mp ha))
  have h3 := Finset.card_le_card h2
  have h4 := List.toFinset_card_le (l := nodes)
  omega

/-- Characterization of the descendant id set computed with fuel
`nodes.length` on a tree-shaped store: a member's id is collected exactly
when its parent chain reaches `tid`. -/
theorem mem_descend_iff {nodes : List MindNode} {m : MindNode} {tid : Nat}
    (hid : idsNodup nodes) (hpo : parentOk nodes) (hro : rootOk nodes)
    (hm : m ∈ nodes) :
    m.id ∈ getDescendantIds nodes nodes.length tid ↔
      ∃ f, leadsTo nodes f m tid = true := by
  constructor
  · intro h
    obtain ⟨m', hm'm, hm'id, f, hf⟩ := descend_sound hid _ _ _ h
    have hmm : m' = m := id_inj hid hm'm hm hm'id
    subst hmm
    exact ⟨f, hf⟩
  · rintro ⟨f, hf⟩
    have hdm := leadsTo_depth hid hpo f m hm hf
    have hb := depth_lt_length hid hpo hro hm
    exact descend_complete m.depth m hm tid nodes.length hdm (by omega)

/-- Connectivity: on a tree-shaped store, every member other than a root
reaches that root through its parent chain. -/
theorem reaches_root {nodes : List MindNode} (hid : idsNodup nodes)
    (hpo : parentOk nodes) (hro : rootOk nodes) (hpos : posNodup nodes) :
    ∀ d, ∀ m, m ∈ nodes → m.depth = d → ∀ r, r ∈ nodes → r.parentId = none →
      m ≠ r → ∃ f, leadsTo nodes f m r.id = true := by
  intro d
  induction d using Nat.strong_induction_on with
  | _ d IH =>
    intro m hm hd r hr hrpar hne
    cases hpar : m.parentId with
    | none =>
      obtain ⟨-, hx, hy⟩ := hro m hm hpar
      obtain ⟨-, hx', hy'⟩ := hro r hr hrpar
      exact absurd (pos_inj hpos hm hr (by rw [hx, hx']) (by rw [hy, hy'])) hne
    | some pid =>
      obtain ⟨p, hpmem, hpid, hdep⟩ := hpo m hm pid hpar
      by_cases hpr : p = r
      · subst hpr
        exact ⟨1, leadsTo_direct 0 (by rw [hpar, hpid])⟩
      · obtain ⟨f, hf⟩ := IH p.depth (by omega) p hpmem rfl r hr hrpar hpr
        have hfind : findNode nodes pid = some p := by
          rw [← hpid]
          exact findNode_eq_of_mem hid hpmem
        exact ⟨f + 1, leadsTo_step hpar hfind hf⟩

/-- A chain never starts at a parentless node. -/
theorem leadsTo_root_false {nodes : List MindNode} {r : MindNode}
    (hr : r.parentId = none) : ∀ f tid, leadsTo nodes f r tid = false := by
  intro f tid
  cases f with
  | zero => rfl
  | succ f => exact leadsTo_eq_of_root hr

/-- A pending placement descriptor is safe to confirm: its cell is free,
its parent reference (when present) resolves in the store, and a root
descriptor only exists over the empty store at the center. -/
def aiCreationOk (nodes : List MindNode) (ai : ActiveInput) : Prop :=
  getNodeAt nodes ai.x ai.y = none ∧
  (∀ q, ai.parentId = some q → ∃ p, p ∈ nodes ∧ p.id = q) ∧
  (ai.parentId = none →
    nodes = [] ∧ ai.x = CENTER_COORD ∧ ai.y = CENTER_COORD)

/-- Consistency of the open input popup with the rest of the editor state:
a non-editing descriptor is safe and coexists only with a dangling
selection; an editing descriptor either matches the selected node or (after
its node was deleted) is itself safe to confirm. -/
def aiOk (st : EditorState) : Prop :=
  ∀ ai, st.activeInput = some ai →
    (ai.isEditing = false →
      aiCreationOk st.nodes ai ∧
      (∀ sid, st.selectedNodeId = some sid → ∀ n, n ∈ st.nodes → n.id ≠ sid)) ∧
    (ai.isEditing = true →
      (st.selectedNodeId = none → aiCreationOk st.nodes ai) ∧
      (∀ sid, st.selectedNodeId = some sid →
        ∃ n, n ∈ st.nodes ∧ n.id = sid ∧ n.x = ai.x ∧ n.y = ai.y ∧
          n.parentId = ai.parentId))

/-- All stored ids are below the id counter. -/
def fresh (st : EditorState) : Prop := ∀ n ∈ st.nodes, n.id < st.nextId

/-- The editor invariant: fresh ids, no duplicate ids, one node per cell,
tree-shaped parent links rooted at the center, and a consistent pending
input. -/
def EditorInv (st : EditorState) : Prop :=
  fresh st ∧ idsNodup st.nodes ∧ posNodup st.nodes ∧ parentOk st.nodes ∧
  rootOk st.nodes ∧ rootExists st.nodes ∧ aiOk st

/-- The invariant only constrains nodes, pending input, selection and the
id counter; states agreeing on those satisfy it together. -/
theorem inv_congr {st₁ st₂ : EditorState} (hn : st₂.nodes = st₁.nodes)
    (ha : st₂.activeInput = st₁.activeInput)
    (hs : st₂.selectedNodeId = st₁.selectedNodeId)
    (hx : st₂.nextId = st₁.nextId) (h : EditorInv st₁) : EditorInv st₂ := by
  obtain ⟨h1, h2, h3, h4, h5, h6, h7⟩ := h
  refine ⟨?_, ?_, ?_, ?_, ?_, ?_, ?_⟩
  · intro n hnn
    rw [hn] at hnn
    rw [hx]
    exact h1 n hnn
  · rw [hn]; exact h2
  · rw [hn]; exact h3
  · rw [hn]; exact h4
  · rw [hn]; exact h5
  · rw [hn]; exact h6
  · intro ai hai
    rw [ha] at hai
    have := h7 ai hai
    rw [hn, hs]
    exact this

/-- The invariant holds at mount on an empty map. -/
theorem inv_initialState : EditorInv initialState := by
  refine ⟨?_, ?_, ?_, ?_, ?_, ?_, ?_⟩
  · intro n hn; cases hn
  · exact List.Pairwise.nil
  · exact List.Pairwise.nil
  · intro n hn; cases hn
  · intro n hn; cases hn
  · exact Or.inl rfl
  · intro ai hai; cases hai

/-- Case analysis of `handleAttemptDrop`: either nothing changes, or (with
the target cell free) the pending input opens and the selection clears. -/
theorem handleAttemptDrop_cases (st : EditorState) (x y : Int)
    (src : MindNode) :
    handleAttemptDrop st x y src = st ∨
    (getNodeAt st.nodes x y = none ∧
      handleAttemptDrop st x y src =
        { st with activeInput := some ⟨x, y, some src.id, false⟩,
                  selectedNodeId := none }) := by
  by_cases h1 : x < 0 ∨ x ≥ GRID_SIZE ∨ y < 0 ∨ y ≥ GRID_SIZE
  · left
    unfold handleAttemptDrop
    rw [if_pos h1]
  · by_cases h2 : (getNodeAt st.nodes x y).isSome = true
    · left
      unfold handleAttemptDrop
      rw [if_neg h1]
      simp only [h2, if_true]
    · have hfree := Option.not_isSome_iff_eq_none.mp h2
      by_cases h3 : (src.x - x).natAbs ≤ 1 ∧ (src.y - y).natAbs ≤ 1 ∧
          ((src.x - x).natAbs > 0 ∨ (src.y - y).natAbs > 0)
      · right
        refine ⟨hfree, ?_⟩
        unfold handleAttemptDrop
        rw [if_neg h1]
        simp only [h2, Bool.false_eq_true, if_false]
        rw [if_pos h3]
      · left
        unfold handleAttemptDrop
        rw [if_neg h1]
        simp only [h2, Bool.false_eq_true, if_false]
        rw [if_neg h3]

/-- A validated drop preserves the invariant (the source node must be a
member, as it is in the pointer-up dispatch). -/
theorem inv_handleAttemptDrop {st : EditorState} (h : EditorInv st)
    (x y : Int) {src : MindNode} (hsrc : src ∈ st.nodes) :
    EditorInv (handleAttemptDrop st x y src) := by
  rcases handleAttemptDrop_cases st x y src with heq | ⟨hfree, heq⟩
  · rw [heq]; exact h
  · rw [heq]
    obtain ⟨h1, h2, h3, h4, h5, h6, h7⟩ := h
    refine ⟨h1, h2, h3, h4, h5, h6, ?_⟩
    intro ai hai
    have hai' : (⟨x, y, some src.id, false⟩ : ActiveInput) = ai :=
      Option.some.inj hai
    subst hai'
    refine ⟨fun _ => ⟨⟨hfree, ?_, ?_⟩, ?_⟩, fun hed => ?_⟩
    · intro q hq
      obtain rfl : src.id = q := Option.some.inj hq
      exact ⟨src, hsrc, rfl⟩
    · intro hq
      exact Option.noConfusion hq
    · intro sid hsid
      exact Option.noConfusion hsid
    · exact Bool.noConfusion hed

/-- Appending a fresh node at a free cell with a valid parent link (or as
root of an empty store at the center) preserves the invariant; the pending
input closes and the new node becomes selected. -/
theorem inv_append {st : EditorState} (h : EditorInv st) {nn : MindNode}
    (hnid : nn.id = st.nextId)
    (hfree : getNodeAt st.nodes nn.x nn.y = none)
    (hroot : nn.parentId = none →
      st.nodes = [] ∧ nn.x = CENTER_COORD ∧ nn.y = CENTER_COORD ∧ nn.depth = 0)
    (hlink : ∀ pid, nn.parentId = some pid →
      ∃ p, p ∈ st.nodes ∧ p.id = pid ∧ nn.depth = p.depth + 1) :
    EditorInv { st with
        nodes := st.nodes ++ [nn], activeInput := none,
        selectedNodeId := some nn.id, nextId := st.nextId + 1 } := by
  obtain ⟨h1, h2, h3, h4, h5, h6, h7⟩ := h
  refine ⟨?_, ?_, ?_, ?_, ?_, ?_, ?_⟩
  · intro n hn
    rcases List.mem_append.mp hn with ho | hs
    · have := h1 n ho
      show n.id < st.nextId + 1
      omega
    · have := List.mem_singleton.mp hs
      subst this
      show n.id < st.nextId + 1
      omega
  · show idsNodup (st.nodes ++ [nn])
    unfold idsNodup
    rw [List.pairwise_append]
    refine ⟨h2, List.pairwise_singleton _ _, ?_⟩
    intro a ha b hb
    have := List.mem_singleton.mp hb
    subst this
    have := h1 a ha
    rw [hnid]
    omega
  · show posNodup (st.nodes ++ [nn])
    unfold posNodup
    rw [List.pairwise_append]
    refine ⟨h3, List.pairwise_singleton _ _, ?_⟩
    intro a ha b hb
    have := List.mem_singleton.mp hb
    subst this
    have hocc := (getNodeAt_eq_none_iff.mp hfree) a ha
    by_cases hax : a.x = b.x
    · exact Or.inr fun hay => hocc ⟨hax, hay⟩
    · exact Or.inl hax
  · intro n hn pid hpid
    rcases List.mem_append.mp hn with ho | hs
    · obtain ⟨p, hp, hpidp, hdep⟩ := h4 n ho pid hpid
      exact ⟨p, List.mem_append_left _ hp, hpidp, hdep⟩
    · have := List.mem_singleton.mp hs
      subst this
      obtain ⟨p, hp, hpidp, hdep⟩ := hlink pid hpid
      exact ⟨p, List.mem_append_left _ hp, hpidp, hdep⟩
  · intro n hn hnone
    rcases List.mem_append.mp hn with ho | hs
    · exact h5 n ho hnone
    · have := List.mem_singleton.mp hs
      subst this
      obtain ⟨-, hx, hy, hd⟩ := hroot hnone
      exact ⟨hd, hx, hy⟩
  · cases hnp : nn.parentId with
    | none =>
      exact Or.inr ⟨nn,
        List.mem_append_right _ (List.mem_singleton_self nn), hnp⟩
    | some pid =>
      obtain ⟨p, hp, -, -⟩ := hlink pid hnp
      rcases h6 with hnil | ⟨r, hr, hrp⟩
      · rw [hnil] at hp; cases hp
      · exact Or.inr ⟨r, List.mem_append_left _ hr, hrp⟩
  · intro ai hai
    exact Option.noConfusion hai

/-- The in-place edit rewrite (content/color of the selected id) preserves
the invariant; the pending input closes. -/
theorem inv_editMap {st : EditorState} (h : EditorInv st) (content : String)
    (color : Hsl) :
    EditorInv { st with
      nodes := st.nodes.map fun n =>
        if st.selectedNodeId == some n.id then
          { n with content := content, color := color }
        else n,
      activeInput := none } := by
  obtain ⟨h1, h2, h3, h4, h5, h6, h7⟩ := h
  have hfields : ∀ n : MindNode,
      ((if st.selectedNodeId == some n.id then
          { n with content := content, color := color }
        else n).id = n.id) ∧
      ((if st.selectedNodeId == some n.id then
          { n with content := content, color := color }
        else n).x = n.x) ∧
      ((if st.selectedNodeId == some n.id then
          { n with content := content, color := color }
        else n).y = n.y) ∧
      ((if st.selectedNodeId == some n.id then
          { n with content := content, color := color }
        else n).parentId = n.parentId) ∧
      ((if st.selectedNodeId == some n.id then
          { n with content := content, color := color }
        else n).depth = n.depth) := by
    intro n
    by_cases hc : (st.selectedNodeId == some n.id) = true
    · rw [if_pos hc]; exact ⟨rfl, rfl, rfl, rfl, rfl⟩
    · rw [if_neg hc]; exact ⟨rfl, rfl, rfl, rfl, rfl⟩
  refine ⟨?_, ?_, ?_, ?_, ?_, ?_, ?_⟩
  · intro n hn
    obtain ⟨m, hm, rfl⟩ := List.mem_map.mp hn
    show _ < st.nextId
    rw [(hfields m).1]
    exact h1 m hm
  · show idsNodup _
    unfold idsNodup
    rw [List.pairwise_map]
    refine List.Pairwise.imp ?_ h2
    intro a b hab
    rw [(hfields a).1, (hfields b).1]
    exact hab
  · show posNodup _
    unfold posNodup
    rw [List.pairwise_map]
    refine List.Pairwise.imp ?_ h3
    intro a b hab
    rw [(hfields a).2.1, (hfields b).2.1, (hfields a).2.2.1,
      (hfields b).2.2.1]
    exact hab
  · intro n hn pid hpid
    obtain ⟨m, hm, rfl⟩ := List.mem_map.mp hn
    rw [(hfields m).2.2.2.1] at hpid
    obtain ⟨p, hp, hpidp, hdep⟩ := h4 m hm pid hpid
    refine ⟨(if st.selectedNodeId == some p.id then
        { p with content := content, color := color } else p),
      List.mem_map_of_mem _ hp, ?_, ?_⟩
    · rw [(hfields p).1]; exact hpidp
    · rw [(hfields m).2.2.2.2, (hfields p).2.2.2.2]; exact hdep
  · intro n hn hnone
    obtain ⟨m, hm, rfl⟩ := List.mem_map.mp hn
    rw [(hfields m).2.2.2.1] at hnone
    obtain ⟨hd, hx, hy⟩ := h5 m hm hnone
    refine ⟨?_, ?_, ?_⟩
    · rw [(hfields m).2.2.2.2]; exact hd
    · rw [(hfields m).2.1]; exact hx
    · rw [(hfields m).2.2.1]; exact hy
  · rcases h6 with hnil | ⟨r, hr, hrp⟩
    · left
      show List.map _ st.nodes = []
      rw [hnil]
      rfl
    · right
      refine ⟨(if st.selectedNodeId == some r.id then
          { r with content := content, color := color } else r),
        List.mem_map_of_mem _ hr, ?_⟩
      rw [(hfields r).2.2.2.1]
      exact hrp
  · intro ai hai
    exact Option.noConfusion hai

/-- The confirm step preserves the invariant. -/
theorem inv_handleSaveNode {st : EditorState} (h : EditorInv st)
    (content : String) (color : Hsl) (now : Nat) :
    EditorInv (handleSaveNode st content color now) := by
  cases hai : st.activeInput with
  | none =>
    unfold handleSaveNode
    simp only [hai]
    exact h
  | some ai =>
    unfold handleSaveNode
    simp only [hai]
    by_cases hcond : ai.isEditing = true ∧ st.selectedNodeId.isSome = true
    · rw [if_pos hcond]
      exact inv_editMap h content color
    · rw [if_neg hcond]
      have hcr : aiCreationOk st.nodes ai := by
        have hb := h.2.2.2.2.2.2 ai hai
        cases hed : ai.isEditing with
        | false => exact (hb.1 hed).1
        | true =>
          have hsel : st.selectedNodeId = none := by
            cases hs : st.selectedNodeId with
            | none => rfl
            | some sid => exact absurd ⟨hed, by rw [hs]; rfl⟩ hcond
          exact (hb.2 hed).1 hsel
      cases hpp : ai.parentId with
      | none =>
        obtain ⟨hnil, hcx, hcy⟩ := hcr.2.2 hpp
        simp only [hpp]
        exact inv_append h rfl hcr.1
          (fun _ => ⟨hnil, hcx, hcy, rfl⟩)
          (fun pid hpid => Option.noConfusion hpid)
      | some pid =>
        obtain ⟨p₀, hp₀, hp₀id⟩ := hcr.2.1 pid hpp
        have hfind : findNode st.nodes pid = some p₀ := by
          rw [← hp₀id]
          exact findNode_eq_of_mem h.2.1 hp₀
        simp only [hpp, hfind]
        exact inv_append h rfl hcr.1
          (fun hq => Option.noConfusion hq)
          (fun pid' hpid' => by
            obtain rfl : pid = pid' := Option.some.inj hpid'
            exact ⟨p₀, hp₀, hp₀id, rfl⟩)

/-- Characterization of cascading delete on a tree-shaped store: a node
survives exactly when it is neither the deleted node nor reaches it through
its parent chain. -/
theorem handleDeleteNode_mem_iff {st : EditorState} {x : MindNode}
    (hid : idsNodup st.nodes) (hpo : parentOk st.nodes) (hro : rootOk st.nodes)
    (hx : x ∈ st.nodes) (m : MindNode) :
    m ∈ (handleDeleteNode st x.id).nodes ↔
      m ∈ st.nodes ∧ m ≠ x ∧ ¬∃ f, leadsTo st.nodes f m x.id = true := by
  show m ∈ st.nodes.filter _ ↔ _
  rw [List.mem_filter]
  constructor
  · rintro ⟨hmm, hcond⟩
    have hnotin : m.id ∉
        x.id :: getDescendantIds st.nodes st.nodes.length x.id := by
      intro hin
      have hc : (x.id :: getDescendantIds st.nodes st.nodes.length
          x.id).contains m.id = true := by simpa using hin
      rw [hc] at hcond
      exact absurd hcond (by simp)
    refine ⟨hmm, ?_, ?_⟩
    · rintro rfl
      exact hnotin (List.mem_cons_self _ _)
    · intro hreach
      exact hnotin (List.mem_cons_of_mem _
        ((mem_descend_iff hid hpo hro hmm).mpr hreach))
  · rintro ⟨hmm, hne, hnreach⟩
    refine ⟨hmm, ?_⟩
    have hnotin : m.id ∉
        x.id :: getDescendantIds st.nodes st.nodes.length x.id := by
      intro hin
      rcases List.mem_cons.mp hin with heq | hdesc
      · exact hne (id_inj hid hmm hx heq)
      · exact hnreach ((mem_descend_iff hid hpo hro hmm).mp hdesc)
    have hc : (x.id :: getDescendantIds st.nodes st.nodes.length
        x.id).contains m.id = false := by
      rw [← Bool.not_eq_true]
      simpa using hnotin
    rw [hc]
    rfl

/-- Deleting a root of a tree-shaped store empties it. -/
theorem handleDeleteNode_root_empties {st : EditorState} {x : MindNode}
    (hid : idsNodup st.nodes) (hpo : parentOk st.nodes) (hro : rootOk st.nodes)
    (hpos : posNodup st.nodes) (hx : x ∈ st.nodes)
    (hxroot : x.parentId = none) :
    (handleDeleteNode st x.id).nodes = [] := by
  rw [List.eq_nil_iff_forall_not_mem]
  intro m hm
  rw [handleDeleteNode_mem_iff hid hpo hro hx] at hm
  obtain ⟨hmm, hne, hnr⟩ := hm
  exact hnr (reaches_root hid hpo hro hpos m.depth m hmm rfl x hx hxroot hne)

/-- Deleting the selected (existing) node preserves the invariant. -/
theorem inv_deleteSelected {st : EditorState} (h : EditorInv st) {sid : Nat}
    {x : MindNode} (hsel : st.selectedNodeId = some sid)
    (hfind : findNode st.nodes sid = some x) :
    EditorInv (handleDeleteNode st sid) := by
  obtain ⟨hx, hxid⟩ := findNode_eq_some _ _ _ hfind
  subst hxid
  obtain ⟨h1, h2, h3, h4, h5, h6, h7⟩ := h
  have hchar := handleDeleteNode_mem_iff h2 h4 h5 hx
  refine ⟨?_, ?_, ?_, ?_, ?_, ?_, ?_⟩
  · intro n hn
    exact h1 n ((hchar n).mp hn).1
  · exact List.Pairwise.sublist (List.filter_sublist _) h2
  · exact List.Pairwise.sublist (List.filter_sublist _) h3
  · intro n hn pid hpid
    obtain ⟨hnm, hne, hnr⟩ := (hchar n).mp hn
    obtain ⟨p, hp, hpidp, hdep⟩ := h4 n hnm pid hpid
    refine ⟨p, (hchar p).mpr ⟨hp, ?_, ?_⟩, hpidp, hdep⟩
    · rintro rfl
      exact hnr ⟨1, leadsTo_direct 0 (by rw [hpid, hpidp])⟩
    · rintro ⟨f, hf⟩
      have hfindp : findNode st.nodes pid = some p := by
        rw [← hpidp]
        exact findNode_eq_of_mem h2 hp
      exact hnr ⟨f + 1, leadsTo_step hpid hfindp hf⟩
  · intro n hn hnone
    exact h5 n ((hchar n).mp hn).1 hnone
  · cases hxp : x.parentId with
    | none =>
      exact Or.inl (handleDeleteNode_root_empties h2 h4 h5 h3 hx hxp)
    | some q =>
      rcases h6 with hnil | ⟨r, hr, hrp⟩
      · rw [hnil] at hx; cases hx
      · refine Or.inr ⟨r, (hchar r).mpr ⟨hr, ?_, ?_⟩, hrp⟩
        · rintro rfl
          rw [hrp] at hxp
          cases hxp
        · rintro ⟨f, hf⟩
          rw [leadsTo_root_false hrp f x.id] at hf
          cases hf
  · intro ai hai
    have hai' : st.activeInput = some ai := hai
    have hb := h7 ai hai'
    constructor
    · intro hed
      have := (hb.1 hed).2 x.id hsel x hx
      exact absurd rfl this
    · intro hed
      obtain ⟨n₀, hn₀m, hn₀id, hn₀x, hn₀y, hn₀p⟩ := (hb.2 hed).2 x.id hsel
      have hn₀ : n₀ = x := id_inj h2 hn₀m hx hn₀id
      subst hn₀
      constructor
      · intro _
        refine ⟨?_, ?_, ?_⟩
        · rw [getNodeAt_eq_none_iff]
          intro n hn hnxy
          obtain ⟨hnm, hne, -⟩ := (hchar n).mp hn
          exact hne (pos_inj h3 hnm hx (by rw [hnxy.1, hn₀x])
            (by rw [hnxy.2, hn₀y]))
        · intro q hq
          rw [← hn₀p] at hq
          obtain ⟨p, hp, hpidp, hdep⟩ := h4 n₀ hx q hq
          refine ⟨p, (hchar p).mpr ⟨hp, ?_, ?_⟩, hpidp⟩
          · rintro rfl
            omega
          · rintro ⟨f, hf⟩
            have hfx : findNode st.nodes n₀.id = some n₀ :=
              findNode_eq_of_mem h2 hx
            have := leadsTo_depth_lt h2 h4 f p hp hf hfx
            omega
        · intro hq
          rw [← hn₀p] at hq
          obtain ⟨hd0, hcx, hcy⟩ := h5 n₀ hx hq
          refine ⟨handleDeleteNode_root_empties h2 h4 h5 h3 hx hq, ?_, ?_⟩
          · rw [← hn₀x]; exact hcx
          · rw [← hn₀y]; exact hcy
      · intro sid' hsid'
        exact Option.noConfusion hsid'

/-- Starting a drag preserves the invariant (only transient drag state
changes). -/
theorem inv_handlePointerDown {st : EditorState} (h : EditorInv st)
    (nid : Nat) : EditorInv (handlePointerDown st nid) := by
  unfold handlePointerDown
  cases hf : findNode st.nodes nid with
  | none => exact h
  | some node => exact inv_congr rfl rfl rfl rfl h

/-- Tracking a drag movement preserves the invariant. -/
theorem inv_handlePointerMove {st : EditorState} (h : EditorInv st)
    (px py : ℚ) : EditorInv (handleContainerPointerMove st px py) := by
  unfold handleContainerPointerMove
  cases hd : st.dragState with
  | none => exact h
  | some ds => exact inv_congr rfl rfl rfl rfl h

/-- Releasing the pointer preserves the invariant, whether the release is a
pure click (selection) or a drop attempt. -/
theorem inv_handlePointerUp {st : EditorState} (h : EditorInv st)
    (inRect : Bool) (xPct yPct : ℚ) :
    EditorInv (handleContainerPointerUp st inRect xPct yPct) := by
  unfold handleContainerPointerUp
  cases hd : st.dragState with
  | none => exact h
  | some ds =>
    simp only []
    refine inv_congr rfl rfl rfl rfl ?_
    by_cases hdr : st.isDragging = true
    · rw [if_pos hdr]
      cases hsf : findNode st.nodes ds.sourceNodeId with
      | none => exact h
      | some src =>
        simp only []
        by_cases hir : inRect = true
        · rw [if_pos hir]
          exact inv_handleAttemptDrop h _ _ (findNode_eq_some _ _ _ hsf).1
        · rw [if_neg hir]
          exact h
    · rw [if_neg hdr]
      obtain ⟨h1, h2, h3, h4, h5, h6, h7⟩ := h
      refine ⟨h1, h2, h3, h4, h5, h6, ?_⟩
      intro ai hai
      exact Option.noConfusion hai

/-- Clicking a grid cell (the root creation entry point) preserves the
invariant. -/
theorem inv_handleCellClick {st : EditorState} (h : EditorInv st)
    (x y : Int) : EditorInv (handleCellClick st x y) := by
  unfold handleCellClick
  by_cases hg : (getNodeAt st.nodes x y).isNone = true ∧ x = CENTER_COORD ∧
      y = CENTER_COORD ∧ st.nodes.length = 0
  · rw [if_pos hg]
    unfold handleCreateRoot
    rw [if_pos hg.2.2.2]
    have hnil : st.nodes = [] := List.length_eq_zero.mp hg.2.2.2
    obtain ⟨h1, h2, h3, h4, h5, h6, h7⟩ := h
    refine ⟨h1, h2, h3, h4, h5, h6, ?_⟩
    intro ai hai
    have hai' : (⟨CENTER_COORD, CENTER_COORD, none, false⟩ : ActiveInput) = ai :=
      Option.some.inj hai
    subst hai'
    refine ⟨fun _ => ⟨⟨?_, ?_, ?_⟩, ?_⟩, fun hed => Bool.noConfusion hed⟩
    · show getNodeAt st.nodes CENTER_COORD CENTER_COORD = none
      rw [hnil]
      rfl
    · intro q hq
      exact Option.noConfusion hq
    · intro _
      exact ⟨hnil, rfl, rfl⟩
    · intro sid hsid n hn
      rw [hnil] at hn
      cases hn
  · rw [if_neg hg]
    exact h

/-- Opening the edit popup over the selected node preserves the invariant. -/
theorem inv_handleEditSelected {st : EditorState} (h : EditorInv st) :
    EditorInv (handleEditSelected st) := by
  unfold handleEditSelected
  cases hs : st.selectedNodeId with
  | none => exact h
  | some sid =>
    simp only []
    cases hf : findNode st.nodes sid with
    | none => exact h
    | some node =>
      obtain ⟨hmem, hnid⟩ := findNode_eq_some _ _ _ hf
      obtain ⟨h1, h2, h3, h4, h5, h6, h7⟩ := h
      refine ⟨h1, h2, h3, h4, h5, h6, ?_⟩
      intro ai hai
      have hai' : (⟨node.x, node.y, node.parentId, true⟩ : ActiveInput) = ai :=
        Option.some.inj hai
      subst hai'
      refine ⟨fun hed => Bool.noConfusion hed, fun _ => ⟨?_, ?_⟩⟩
      · intro hsel
        have hsel' : (some sid : Option Nat) = none := hsel
        cases hsel'
      · intro sid' hsid'
        have hsid'' : (some sid : Option Nat) = some sid' := hsid'
        obtain rfl : sid = sid' := Option.some.inj hsid''
        exact ⟨node, hmem, hnid, rfl, rfl, rfl⟩

/-- Every UI event preserves the invariant. -/
theorem inv_step {st : EditorState} (h : EditorInv st) (op : Op) :
    EditorInv (step st op) := by
  cases op with
  | pointerDown nid => exact inv_handlePointerDown h nid
  | pointerMove px py => exact inv_handlePointerMove h px py
  | pointerUp inRect xPct yPct => exact inv_handlePointerUp h inRect xPct yPct
  | cellClick x y => exact inv_handleCellClick h x y
  | saveNode content color now => exact inv_handleSaveNode h content color now
  | cancelInput =>
    obtain ⟨h1, h2, h3, h4, h5, h6, h7⟩ := h
    exact ⟨h1, h2, h3, h4, h5, h6, fun ai hai => Option.noConfusion hai⟩
  | editSelected => exact inv_handleEditSelected h
  | deleteSelected =>
    show EditorInv (match st.selectedNodeId with
      | some sid =>
        match findNode st.nodes sid with
        | some _ => handleDeleteNode st sid
        | none => st
      | none => st)
    cases hs : st.selectedNodeId with
    | none => exact h
    | some sid =>
      simp only []
      cases hf : findNode st.nodes sid with
      | none => exact h
      | some x => exact inv_deleteSelected h hs hf
  | hoverEnter nid =>
    show EditorInv (match findNode st.nodes nid with
      | some _ => { st with hoveredNodeId := some nid }
      | none => st)
    cases hf : findNode st.nodes nid with
    | none => exact h
    | some x => exact inv_congr rfl rfl rfl rfl h
  | hoverLeave => exact inv_congr rfl rfl rfl rfl h

/-- Every state reachable from the empty store by UI events satisfies the
invariant. -/
theorem inv_run (ops : List Op) : EditorInv (run ops) := by
  suffices hgen : ∀ st, EditorInv st → EditorInv (ops.foldl step st) from
    hgen initialState inv_initialState
  induction ops with
  | nil => intro st h; exact h
  | cons op ops ih =>
    intro st h
    exact ih (step st op) (inv_step h op)

/-- Claim C1. For every sequence of UI events from the empty store (root
creation, drag-validated placement, confirm, edit, delete, and the pointer
interactions dispatching them), the node set is a tree: every non-root
node's parent id resolves in the collection; when non-empty there is
exactly one parentless node, at depth 0 and at CENTER = (3, 3), which every
other node reaches by following `parentId` links; and no node's parent
chain ever returns to itself (no cycles). -/
theorem claim_C1_tree_invariant (ops : List Op) :
    (∀ n ∈ (run ops).nodes, ∀ pid, n.parentId = some pid →
      ∃ p, p ∈ (run ops).nodes ∧ p.id = pid) ∧
    ((run ops).nodes ≠ [] →
      ∃ r, r ∈ (run ops).nodes ∧ r.parentId = none ∧ r.depth = 0 ∧
        r.x = CENTER_COORD ∧ r.y = CENTER_COORD ∧
        (∀ a ∈ (run ops).nodes, a.parentId = none → a = r) ∧
        (∀ n ∈ (run ops).nodes, n ≠ r →
          ∃ f, leadsTo (run ops).nodes f n r.id = true)) ∧
    (∀ n ∈ (run ops).nodes, ∀ f, leadsTo (run ops).nodes f n n.id = false) := by
  obtain ⟨h1, h2, h3, h4, h5, h6, h7⟩ := inv_run ops
  refine ⟨?_, ?_, ?_⟩
  · intro n hn pid hpid
    obtain ⟨p, hp, hpidp, -⟩ := h4 n hn pid hpid
    exact ⟨p, hp, hpidp⟩
  · intro hne
    rcases h6 with hnil | ⟨r, hr, hrp⟩
    · exact absurd hnil hne
    · obtain ⟨hd0, hcx, hcy⟩ := h5 r hr hrp
      refine ⟨r, hr, hrp, hd0, hcx, hcy, ?_, ?_⟩
      · intro a ha hap
        obtain ⟨-, hax, hay⟩ := h5 a ha hap
        exact pos_inj h3 ha hr (by rw [hax, hcx]) (by rw [hay, hcy])
      · intro n hn hnr
        exact reaches_root h2 h4 h5 h3 n.depth n hn rfl r hr hrp hnr
  · intro n hn f
    by_contra hcyc
    rw [Bool.not_eq_false] at hcyc
    have hfn : findNode (run ops).nodes n.id = some n :=
      findNode_eq_of_mem h2 hn
    have := leadsTo_depth_lt h2 h4 f n hn hcyc hfn
    omega

/-- Claim C1 witness: after creating the root on the empty store the
resulting one-node set has its unique root at the center. -/
theorem claim_C1_tree_invariant_witness :
    (run [Op.cellClick 3 3, Op.saveNode "idea" sampleColor 0]).nodes ≠ [] ∧
    (∃ r, r ∈ (run [Op.cellClick 3 3,
        Op.saveNode "idea" sampleColor 0]).nodes ∧
      r.parentId = none ∧ r.depth = 0 ∧
      r.x = CENTER_COORD ∧ r.y = CENTER_COORD ∧
      (∀ a ∈ (run [Op.cellClick 3 3,
          Op.saveNode "idea" sampleColor 0]).nodes,
        a.parentId = none → a = r) ∧
      (∀ n ∈ (run [Op.cellClick 3 3,
          Op.saveNode "idea" sampleColor 0]).nodes,
        n ≠ r → ∃ f, leadsTo (run [Op.cellClick 3 3,
          Op.saveNode "idea" sampleColor 0]).nodes f n r.id = true)) :=
  ⟨by decide,
   (claim_C1_tree_invariant
     [Op.cellClick 3 3, Op.saveNode "idea" sampleColor 0]).2.1 (by decide)⟩

/-- Claim C3. On any invariant-satisfying store, deleting a node removes
exactly that node together with every node whose `parentId` chain leads to
it, and nothing else (survival is characterized by the equivalence below);
in particular, deleting the root empties the store entirely. -/
theorem claim_C3_delete_subtree (st : EditorState) (x : MindNode)
    (hInv : EditorInv st) (hx : x ∈ st.nodes) :
    (∀ m, m ∈ (handleDeleteNode st x.id).nodes ↔
      (m ∈ st.nodes ∧ m ≠ x ∧ ¬∃ f, leadsTo st.nodes f m x.id = true)) ∧
    (x.parentId = none → (handleDeleteNode st x.id).nodes = []) := by
  obtain ⟨h1, h2, h3, h4, h5, h6, h7⟩ := hInv
  exact ⟨handleDeleteNode_mem_iff h2 h4 h5 hx,
    fun hroot => handleDeleteNode_root_empties h2 h4 h5 h3 hx hroot⟩

/-- Claim C3 witness: deleting the root of a freshly created one-node store
empties it. -/
theorem claim_C3_delete_subtree_witness :
    ({ id := 0, x := 3, y := 3, content := "idea", color := sampleColor,
       parentId := none, depth := 0, timestamp := 0 } : MindNode) ∈
      (run [Op.cellClick 3 3, Op.saveNode "idea" sampleColor 0]).nodes ∧
    (handleDeleteNode
      (run [Op.cellClick 3 3, Op.saveNode "idea" sampleColor 0]) 0).nodes =
      [] := by
  refine ⟨by decide, ?_⟩
  have h := claim_C3_delete_subtree
    (run [Op.cellClick 3 3, Op.saveNode "idea" sampleColor 0])
    { id := 0, x := 3, y := 3, content := "idea", color := sampleColor,
      parentId := none, depth := 0, timestamp := 0 }
    (inv_run _) (by decide)
  exact h.2 rfl

/-- Claim C5 (amended). The confirm step performs no occupancy re-check
(see the counterexample), but in every editor state reachable from the
empty store a non-editing pending descriptor's target cell is unoccupied —
the race the spec guards against cannot arise within one editor session —
and no two nodes ever share a cell. -/
theorem claim_C5_amended (ops : List Op) :
    posNodup (run ops).nodes ∧
    (∀ ai, (run ops).activeInput = some ai → ai.isEditing = false →
      getNodeAt (run ops).nodes ai.x ai.y = none) := by
  obtain ⟨h1, h2, h3, h4, h5, h6, h7⟩ := inv_run ops
  refine ⟨h3, ?_⟩
  intro ai hai hed
  exact ((h7 ai hai).1 hed).1.1

/-- Claim C5 witness: after opening the root placement input on the empty
store, the pending target (3, 3) is indeed unoccupied. -/
theorem claim_C5_amended_witness :
    (run [Op.cellClick 3 3]).activeInput = some ⟨3, 3, none, false⟩ ∧
    getNodeAt (run [Op.cellClick 3 3]).nodes 3 3 = none := by
  refine ⟨by decide, ?_⟩
  exact (claim_C5_amended [Op.cellClick 3 3]).2 ⟨3, 3, none, false⟩
    (by decide) rfl
